import Mathlib

/-!
Shallow embedding of the cppcmb parser-combinator engine (cppcmb.hpp) and
verification of its specification.

Modelling conventions:
- A `TokenIterator` (a C++ forward iterator into a token stream) is modelled by
  `Cursor`: the underlying stream together with a position.  `std::next`
  becomes `advance`; dereferencing becomes the guarded `deref` (a forward
  iterator may only be dereferenced when it is not the end iterator).
- The C++ result type `std::optional<std::pair<Data, TokenIterator>>` is
  modelled by `Option (σ × Cursor α)`: `none` is parse failure, `some` is
  success with value and next iterator.
- Where the C++ source has undefined behaviour (dereferencing the end
  iterator in `cmb_one_fn`, dereferencing a disengaged `std::optional` in
  `cmb_rep1_fn`) or a possibly non-terminating loop (`cmb_rep_fn`), the
  embedded function returns an OUTER `Option`: `none` at the outer level
  means "the C++ computation has no defined result" (undefined behaviour or
  divergence), while `some r` means the computation terminates with the
  parse result `r`.
- The heterogeneous tuple machinery (`detail::as_tuple`, `detail::unwrap_tuple`,
  `detail::concat`, `std::make_tuple()`) is modelled by the inductive `Val`:
  `Val.atom` is a non-tuple C++ value and `Val.tup` a `std::tuple` of values.
-/

namespace Cppcmb

/-- A forward iterator into a token stream: the stream plus a position.
Copying is by value, matching the C++ iterator semantics. -/
structure Cursor (α : Type) where
  stream : List α
  pos    : Nat
deriving Repr, DecidableEq

/-- `std::next(it)`: advance the iterator by one step. -/
def advance {α : Type} (it : Cursor α) : Cursor α :=
  ⟨it.stream, it.pos + 1⟩

/-- Dereferencing the iterator (`*it`).  Defined (`some`) exactly when the
iterator is not at the end of the stream; `none` marks the positions where a
C++ dereference would be undefined behaviour. -/
def deref {α : Type} (it : Cursor α) : Option α :=
  it.stream[it.pos]?

/-- A combinator in the `combinator_types<TokenIterator>` module: a function
from an iterator to `std::optional<std::pair<Data, TokenIterator>>`. -/
abbrev Parser (α σ : Type) : Type := Cursor α → Option (σ × Cursor α)

/-- The shape of C++ values flowing through the engine: either a bare
(non-tuple) value or a `std::tuple` of such shapes. -/
inductive Val (β : Type) : Type where
  | atom : β → Val β
  | tup  : List (Val β) → Val β
deriving Repr

/-- `detail::as_tuple`: wrap a non-tuple value into a one-element tuple,
pass a tuple through unchanged.  Here the "tuple" is the component list. -/
def as_tuple {β : Type} : Val β → List (Val β)
  | .atom a => [.atom a]
  | .tup xs => xs

/-- `detail::unwrap_tuple`: recursively unwrap one-element tuples
(`unwrap_tuple_impl<std::tuple<T>>`); every other shape is passed through
unchanged (the primary `unwrap_tuple_impl`). -/
def unwrap_tuple {β : Type} : Val β → Val β
  | .atom a => .atom a
  | .tup [] => .tup []
  | .tup [x] => unwrap_tuple x
  | .tup (x :: y :: rest) => .tup (x :: y :: rest)

/-- `detail::concat` (binary case, as used by sequencing): concatenate the
arguments as tuples and unwrap the result if possible. -/
def concat {β : Type} (a b : Val β) : Val β :=
  unwrap_tuple (Val.tup (as_tuple a ++ as_tuple b))

/-- The arity of a composite value: its number of components when viewed as
a tuple (a bare value has arity 1). -/
def arity {β : Type} (v : Val β) : Nat :=
  (as_tuple v).length

/-- `cmb_succ_fn`: succeed with an empty tuple (`std::make_tuple()`) without
moving the iterator. -/
def cmb_succ_fn {α β : Type} (it : Cursor α) : Option (Val β × Cursor α) :=
  some (Val.tup [], it)

/-- `cmb_fail_helper<T>::cmb_fail_fn1`: fail (empty `result_type<T>`) at any
iterator. -/
def cmb_fail_fn1 {α σ : Type} (_ : Cursor α) : Option (σ × Cursor α) :=
  none

/-- `cmb_one_fn`: `make_result(*it, std::next(it))`, unconditionally.  The
dereference `*it` is only defined when the iterator is not at the stream
end, so the outer `Option` records definedness: at the end of the stream
the C++ computation is undefined behaviour (`none`), never a parse result. -/
def cmb_one_fn {α : Type} (it : Cursor α) : Option (Option (α × Cursor α)) :=
  (deref it).map fun t => some (t, advance it)

/-- `cmb_opt_fn_aux<Combinator>::cmb_opt_fn`: run the combinator; on success
wrap its data in an engaged `std::optional` and keep its iterator, on
failure succeed with a disengaged `std::optional` at the original iterator. -/
def cmb_opt_fn {α σ : Type} (P : Parser α σ) (it : Cursor α) :
    Option (Option σ × Cursor α) :=
  match P it with
  | some res => some (some res.1, res.2)
  | none => some (none, it)

/-- `cmb_seq_fn_aux<First, Rest...>::cmb_seq_fn` for two combinators: run the
first; on its success run the second from the first's resulting iterator; on
full success concatenate the two data values with `detail::concat` and keep
the second's iterator; otherwise fail (`fail<data_type>()(it)`). -/
def cmb_seq_fn {α β : Type} (P1 P2 : Parser α (Val β)) (it : Cursor α) :
    Option (Val β × Cursor α) :=
  match P1 it with
  | some first =>
    match P2 first.2 with
    | some rest => some (concat first.1 rest.1, rest.2)
    | none => none
  | none => none

/-- `cmb_alt_fn_aux<ResultData, First, Rest...>::cmb_alt_fn` over a list of
combinators: with a single combinator left, return its result; otherwise run
the first and return its result if it succeeded, else recurse on the rest at
the ORIGINAL iterator. -/
def cmb_alt_fn {α σ : Type} : List (Parser α σ) → Cursor α → Option (σ × Cursor α)
  | [], _ => none
  | [p], it => p it
  | p :: rest, it =>
    match p it with
    | some r => some r
    | none => cmb_alt_fn rest it

/-- The `while (true)` loop body of `cmb_rep_fn`, with explicit fuel: run the
combinator; on failure succeed with the accumulated collection at the current
iterator; on success push the value onto the back of the collection, move the
iterator and continue.  Exhausted fuel (`none` at the outer level) models the
C++ loop not terminating. -/
def cmb_rep_fn_loop {α σ : Type} (P : Parser α σ) :
    Nat → List σ → Cursor α → Option (Option (List σ × Cursor α))
  | 0, _, _ => none
  | fuel + 1, acc, it =>
    match P it with
    | none => some (some (acc, it))
    | some (v, it2) => cmb_rep_fn_loop P fuel (acc ++ [v]) it2

/-- `cmb_rep_fn_aux<Collection, Combinator>::cmb_rep_fn`: the repetition loop
started from an empty collection. -/
def cmb_rep_fn {α σ : Type} (P : Parser α σ) (fuel : Nat) (it : Cursor α) :
    Option (Option (List σ × Cursor α)) :=
  cmb_rep_fn_loop P fuel [] it

/-- `cmb_rep1_fn_aux<Collection, Combinator>::cmb_rep1_fn`: run `cmb_rep_fn`;
if the collected result is empty, fail (`res_type()`), otherwise return the
repetition result unchanged.  The C++ dereferences `res->first` without a
check; a disengaged result would be undefined behaviour (outer `none`), but
`cmb_rep_fn` never produces one. -/
def cmb_rep1_fn {α σ : Type} (P : Parser α σ) (fuel : Nat) (it : Cursor α) :
    Option (Option (List σ × Cursor α)) :=
  match cmb_rep_fn P fuel it with
  | none => none
  | some none => none
  | some (some (vs, it2)) =>
    if vs.isEmpty then some none else some (some (vs, it2))

/-- `cmb_map_fn_aux<Combinator, Mapper>::cmb_map_fn`, the branch where the
transform result is NOT a `detail::maybe` (a total mapper): on success of the
combinator, spread its data as arguments to the mapper (`std::apply` over
`as_tuple`), unwrap the transformed value and keep the combinator's iterator;
on failure, fail. -/
def cmb_map_fn_total {α β : Type} (P : Parser α (Val β))
    (f : List (Val β) → Val β) (it : Cursor α) : Option (Val β × Cursor α) :=
  match P it with
  | some res => some (unwrap_tuple (f (as_tuple res.1)), res.2)
  | none => none

/-- `cmb_map_fn_aux<Combinator, Mapper>::cmb_map_fn`, the branch where the
transform result IS a `detail::maybe` (a mapper that can fail): on success of
the combinator apply the mapper to the spread data; if the maybe is engaged,
succeed with the unwrapped transformed value at the combinator's iterator;
if the maybe is empty, or the combinator failed, fail. -/
def cmb_map_fn_maybe {α β : Type} (P : Parser α (Val β))
    (f : List (Val β) → Option (Val β)) (it : Cursor α) :
    Option (Val β × Cursor α) :=
  match P it with
  | some res =>
    match f (as_tuple res.1) with
    | some transformed => some (unwrap_tuple transformed, res.2)
    | none => none
  | none => none

/-- `detail::foldl_impl`: `first := Folder(first, *it)` for each element of
`rest`, front to back, then return `first`. -/
def foldl_impl {α β : Type} (op : β → α → β) : β → List α → β
  | first, [] => first
  | first, x :: xs => foldl_impl op (op first x) xs

/-- The reverse traversal of `detail::foldr_impl`'s loop:
`first := Folder(*it, first)` for each element front to back of the given
(already reversed) list. -/
def foldr_loop {α β : Type} (op : α → β → β) : List α → β → β
  | [], first => first
  | x :: xs, first => foldr_loop op xs (op x first)

/-- `detail::foldr_impl`: iterate `rest` from `crbegin` to `crend` (back to
front), updating `first := Folder(*it, first)`, then return `first`. -/
def foldr_impl {α β : Type} (op : α → β → β) (rest : List α) (first : β) : β :=
  foldr_loop op rest.reverse first

/-- A run of consecutive successful applications of a parser: `RunChain P c
vs c2` holds when applying `P` repeatedly from `c` succeeds, producing the
values `vs` in order, and ends at cursor `c2`. -/
inductive RunChain {α σ : Type} (P : Parser α σ) : Cursor α → List σ → Cursor α → Prop
  | nil (it : Cursor α) : RunChain P it [] it
  | cons {it it1 it2 : Cursor α} {v : σ} {vs : List σ} :
      P it = some (v, it1) → RunChain P it1 vs it2 → RunChain P it (v :: vs) it2

/-- A concrete test parser over `Nat` tokens: succeed with the current token
and the advanced cursor when not at the end, fail at the end. -/
def pTok : Parser Nat Nat := fun it =>
  match it.stream[it.pos]? with
  | some t => some (t, advance it)
  | none => none

/-- A concrete test parser that fails everywhere. -/
def pFailN : Parser Nat Nat := fun _ => none

/-- A concrete test parser producing `Val` data: the current token as an
atom, or failure at the end of the stream. -/
def pTokV : Parser Nat (Val Nat) := fun it =>
  match it.stream[it.pos]? with
  | some t => some (Val.atom t, advance it)
  | none => none

/-! ## Value-shaping lemmas -/

theorem unwrap_tuple_ne_singleton {β : Type} (v : Val β) :
    ∀ x : Val β, unwrap_tuple v ≠ Val.tup [x] := by
  induction v using unwrap_tuple.induct with
  | case1 a => intro x h; simp [unwrap_tuple] at h
  | case2 => intro x h; simp [unwrap_tuple] at h
  | case3 y ih => intro x h; exact ih x (by simpa [unwrap_tuple] using h)
  | case4 y z rest => intro x h; simp [unwrap_tuple] at h

theorem unwrap_tuple_idem {β : Type} (v : Val β) :
    unwrap_tuple (unwrap_tuple v) = unwrap_tuple v := by
  induction v using unwrap_tuple.induct with
  | case1 a => rfl
  | case2 => rfl
  | case3 y ih => simpa [unwrap_tuple] using ih
  | case4 y z rest => rfl

theorem unwrap_tuple_tup_of_ne_one {β : Type} (xs : List (Val β))
    (h : xs.length ≠ 1) : unwrap_tuple (Val.tup xs) = Val.tup xs := by
  match xs with
  | [] => rfl
  | [x] => exact absurd rfl h
  | x :: y :: rest => rfl

theorem normal_arity_one {β : Type} (v : Val β) (hv : unwrap_tuple v = v)
    (h1 : (as_tuple v).length = 1) : ∃ c, v = Val.atom c := by
  cases v with
  | atom c => exact ⟨c, rfl⟩
  | tup xs =>
    exfalso
    simp only [as_tuple] at h1
    obtain ⟨x, rfl⟩ := List.length_eq_one.mp h1
    simp only [unwrap_tuple] at hv
    exact unwrap_tuple_ne_singleton x x hv

theorem arity_concat {β : Type} (a b : Val β)
    (ha : unwrap_tuple a = a) (hb : unwrap_tuple b = b) :
    arity (concat a b) = arity a + arity b := by
  unfold concat arity
  by_cases hlen : (as_tuple a ++ as_tuple b).length = 1
  · have hsum : (as_tuple a).length + (as_tuple b).length = 1 := by
      simpa [List.length_append] using hlen
    have hcase : (as_tuple a).length = 0 ∧ (as_tuple b).length = 1 ∨
        (as_tuple a).length = 1 ∧ (as_tuple b).length = 0 := by omega
    rcases hcase with ⟨h0, h1⟩ | ⟨h1, h0⟩
    · obtain ⟨c, rfl⟩ := normal_arity_one b hb h1
      have hae : as_tuple a = [] := List.length_eq_zero.mp h0
      rw [hae]
      simp [as_tuple, unwrap_tuple]
    · obtain ⟨c, rfl⟩ := normal_arity_one a ha h1
      have hbe : as_tuple b = [] := List.length_eq_zero.mp h0
      rw [hbe]
      simp [as_tuple, unwrap_tuple]
  · rw [unwrap_tuple_tup_of_ne_one _ hlen]
    simp [as_tuple, List.length_append]

/-- Claim C8: for unwrap-normal composite values (the shapes the engine
keeps): (a) a one-component composite unwraps to the bare component value,
and (b) `concat` of composites of arities `m` and `n` yields a composite of
arity `m + n` that is itself flat (a fixed point of `unwrap_tuple`, hence
never a nested singleton). -/
theorem concat_unwrap_invariants {β : Type} (a b : Val β)
    (ha : unwrap_tuple a = a) (hb : unwrap_tuple b = b) :
    (∀ v : Val β, unwrap_tuple (Val.tup [v]) = unwrap_tuple v) ∧
    arity (concat a b) = arity a + arity b ∧
    unwrap_tuple (concat a b) = concat a b :=
  ⟨fun _ => rfl, arity_concat a b ha hb, unwrap_tuple_idem _⟩

theorem concat_unwrap_invariants_witness :
    arity (concat (Val.tup [Val.atom 1, Val.atom 2]) (Val.atom 3)) =
      arity (Val.tup [Val.atom (1 : Nat), Val.atom 2]) + arity (Val.atom (3 : Nat)) :=
  (concat_unwrap_invariants (Val.tup [Val.atom 1, Val.atom 2]) (Val.atom 3)
    rfl rfl).2.1

/-! ## Fold lemmas -/

theorem foldl_impl_eq_foldl {α β : Type} (op : β → α → β) (s : List α) :
    ∀ i : β, foldl_impl op i s = s.foldl op i := by
  induction s with
  | nil => intro i; rfl
  | cons x xs ih => intro i; simp only [foldl_impl, List.foldl_cons]; exact ih (op i x)

theorem foldr_loop_append {α β : Type} (op : α → β → β) (l1 l2 : List α) :
    ∀ b : β, foldr_loop op (l1 ++ l2) b = foldr_loop op l2 (foldr_loop op l1 b) := by
  induction l1 with
  | nil => intro b; rfl
  | cons x xs ih => intro b; simp only [List.cons_append, foldr_loop]; exact ih (op x b)

theorem foldr_impl_eq_foldr {α β : Type} (op : α → β → β) (s : List α) :
    ∀ i : β, foldr_impl op s i = s.foldr op i := by
  induction s with
  | nil => intro i; rfl
  | cons x xs ih =>
    intro i
    simp only [foldr_impl, List.reverse_cons, List.foldr_cons]
    rw [foldr_loop_append]
    simp only [foldr_loop]
    exact ih i ▸ rfl

/-! ## Claim theorems -/

/-- Claim C10: for every cursor `c`, `cmb_succ_fn` returns Success with the
empty tuple value and the unchanged cursor `c` (consuming nothing), and
`cmb_fail_fn1` returns Failure at every cursor. -/
theorem succ_fail_correct {α σ : Type} (it : Cursor α) :
    @cmb_succ_fn α σ it = some (Val.tup [], it) ∧ @cmb_fail_fn1 α σ it = none :=
  ⟨rfl, rfl⟩

/-- Claim C1 (code defect): at an end-of-stream cursor the source's
`cmb_one_fn` dereferences the end iterator, so the computation is undefined
(outer `none`); in particular it is NOT the Failure result `some none` that
the claim requires.  At a cursor not at the end it does succeed with the
current token and the cursor advanced by exactly one step. -/
theorem cmb_one_fn_end_undefined :
    cmb_one_fn (Cursor.mk ([] : List Nat) 0) = none ∧
    cmb_one_fn (Cursor.mk [7, 8] 0) = some (some (7, Cursor.mk [7, 8] 1)) :=
  ⟨rfl, rfl⟩

/-- Claim C4: `cmb_opt_fn` always succeeds: if `P` succeeds at `c` the result
is the `some`-wrapped value of `P` with `P`'s next cursor, and if `P` fails at
`c` the result is the absent value (`none`, still inside a Success) with the
original cursor `c`; the optional wrapper stays in the result value. -/
theorem cmb_opt_fn_correct {α σ : Type} (P : Parser α σ) (it : Cursor α) :
    (∃ r, cmb_opt_fn P it = some r) ∧
    (∀ v it2, P it = some (v, it2) → cmb_opt_fn P it = some (some v, it2)) ∧
    (P it = none → cmb_opt_fn P it = some (none, it)) := by
  refine ⟨?_, ?_, ?_⟩
  · cases h : P it with
    | some r => exact ⟨(some r.1, r.2), by simp [cmb_opt_fn, h]⟩
    | none => exact ⟨(none, it), by simp [cmb_opt_fn, h]⟩
  · intro v it2 h
    simp [cmb_opt_fn, h]
  · intro h
    simp [cmb_opt_fn, h]

theorem cmb_opt_fn_correct_witness :
    cmb_opt_fn pFailN (Cursor.mk [3] 0) = some (none, Cursor.mk [3] 0) :=
  (cmb_opt_fn_correct pFailN (Cursor.mk [3] 0)).2.2 rfl

/-- Claim C2: `cmb_seq_fn P1 P2` at `c` succeeds iff `P1` succeeds at `c` and
`P2` succeeds at `P1`'s resulting cursor; on success the value is the
flattening-concatenation `concat` of the two component values and the next
cursor is `P2`'s next cursor (hence consumed length is the sum of the two
consumed lengths); on either sub-parser failure the whole sequence fails. -/
theorem cmb_seq_fn_correct {α β : Type} (P1 P2 : Parser α (Val β)) (it : Cursor α) :
    ((cmb_seq_fn P1 P2 it).isSome ↔
      ∃ v1 it1, P1 it = some (v1, it1) ∧ (P2 it1).isSome) ∧
    (∀ v1 it1 v2 it2, P1 it = some (v1, it1) → P2 it1 = some (v2, it2) →
      cmb_seq_fn P1 P2 it = some (concat v1 v2, it2) ∧
      (it.pos ≤ it1.pos → it1.pos ≤ it2.pos →
        it2.pos - it.pos = (it1.pos - it.pos) + (it2.pos - it1.pos))) ∧
    (P1 it = none → cmb_seq_fn P1 P2 it = none) ∧
    (∀ v1 it1, P1 it = some (v1, it1) → P2 it1 = none →
      cmb_seq_fn P1 P2 it = none) := by
  refine ⟨?_, ?_, ?_, ?_⟩
  · cases h1 : P1 it with
    | none => simp [cmb_seq_fn, h1]
    | some r1 =>
      obtain ⟨w1, j1⟩ := r1
      cases h2 : P2 j1 with
      | none =>
        simp only [cmb_seq_fn, h1, h2, Option.isSome_none, Bool.false_eq_true,
          false_iff]
        rintro ⟨v1, it1, hv, hs⟩
        simp only [Option.some.injEq, Prod.mk.injEq] at hv
        obtain ⟨rfl, rfl⟩ := hv
        rw [h2] at hs
        simp at hs
      | some r2 =>
        simp only [cmb_seq_fn, h1, h2, Option.isSome_some, true_iff]
        exact ⟨w1, j1, rfl, by rw [h2]; rfl⟩
  · intro v1 it1 v2 it2 h1 h2
    refine ⟨by simp [cmb_seq_fn, h1, h2], ?_⟩
    intro hle1 hle2
    omega
  · intro h1
    simp [cmb_seq_fn, h1]
  · intro v1 it1 h1 h2
    simp [cmb_seq_fn, h1, h2]

theorem cmb_seq_fn_correct_witness :
    cmb_seq_fn pTokV pTokV (Cursor.mk [1, 2] 0) =
      some (concat (Val.atom 1) (Val.atom 2), Cursor.mk [1, 2] 2) :=
  ((cmb_seq_fn_correct pTokV pTokV (Cursor.mk [1, 2] 0)).2.1 (Val.atom 1)
    (Cursor.mk [1, 2] 1) (Val.atom 2) (Cursor.mk [1, 2] 2) rfl rfl).1

theorem cmb_alt_fn_cons {α σ : Type} (p : Parser α σ) (ps : List (Parser α σ))
    (it : Cursor α) :
    cmb_alt_fn (p :: ps) it =
      match p it with
      | some r => some r
      | none => cmb_alt_fn ps it := by
  cases ps with
  | nil =>
    show p it = _
    cases h : p it <;> simp [cmb_alt_fn, h]
  | cons q qs => rfl

/-- Claim C3: `cmb_alt_fn` over branches `P1..Pn` at `c` tries each branch in
order, every branch against the original cursor `c`: it fails iff every
branch fails at `c`, and it returns `r` iff some branch `Pi` returns `r` at
`c` while every earlier branch fails at `c` — exactly the result of the
first branch that succeeds at `c` alone. -/
theorem cmb_alt_fn_correct {α σ : Type} (ps : List (Parser α σ)) (it : Cursor α) :
    (cmb_alt_fn ps it = none ↔ ∀ p ∈ ps, p it = none) ∧
    (∀ r, cmb_alt_fn ps it = some r ↔
      ∃ i, ∃ h : i < ps.length, (ps.get ⟨i, h⟩) it = some r ∧
        ∀ j (hj : j < ps.length), j < i → (ps.get ⟨j, hj⟩) it = none) := by
  induction ps with
  | nil =>
    refine ⟨by simp [cmb_alt_fn], ?_⟩
    intro r
    simp [cmb_alt_fn]
  | cons p tail ih =>
    rw [cmb_alt_fn_cons]
    cases h : p it with
    | some r0 =>
      refine ⟨by simp [h], ?_⟩
      intro r
      constructor
      · intro hr
        refine ⟨0, by simp, ?_, ?_⟩
        · show p it = some r
          rw [h]; exact hr
        · intro j hj hj0
          exact absurd hj0 (Nat.not_lt_zero j)
      · rintro ⟨i, hi, hget, hprior⟩
        cases i with
        | zero =>
          have : p it = some r := hget
          rw [h] at this
          exact this
        | succ i1 =>
          have h0 : p it = none := hprior 0 (Nat.succ_pos _) (Nat.succ_pos _)
          rw [h] at h0
          exact Option.noConfusion h0
    | none =>
      refine ⟨?_, ?_⟩
      · rw [ih.1]
        simp [h]
      · intro r
        rw [ih.2 r]
        constructor
        · rintro ⟨i, hi, hget, hprior⟩
          refine ⟨i + 1, Nat.succ_lt_succ hi, hget, ?_⟩
          intro j hj hji
          cases j with
          | zero => exact h
          | succ j1 =>
            exact hprior j1 (Nat.lt_of_succ_lt_succ hj) (Nat.lt_of_succ_lt_succ hji)
        · rintro ⟨i, hi, hget, hprior⟩
          cases i with
          | zero =>
            have : p it = some r := hget
            rw [h] at this
            exact Option.noConfusion this
          | succ i1 =>
            refine ⟨i1, Nat.lt_of_succ_lt_succ hi, hget, ?_⟩
            intro j hj hji
            exact hprior (j + 1) (Nat.succ_lt_succ hj) (Nat.succ_lt_succ hji)

theorem cmb_alt_fn_correct_witness :
    cmb_alt_fn [pFailN, pTok] (Cursor.mk [4] 0) = some (4, Cursor.mk [4] 1) :=
  ((cmb_alt_fn_correct [pFailN, pTok] (Cursor.mk [4] 0)).2
      (4, Cursor.mk [4] 1)).mpr
    ⟨1, by decide, rfl, fun j hj hj1 => by
      obtain rfl : j = 0 := by omega
      rfl⟩

/-- Claim C9: `foldl_impl op` on `(i, s)` is the left-associative
accumulation (canonical `List.foldl`), and `foldr_impl op` on `(s, i)` is the
right-associative accumulation obtained by iterating `s` from the back
(canonical `List.foldr`); both are total functions on plain values with no
cursor in their types and no failure path. -/
theorem fold_impl_correct {α β γ : Type} (opl : β → α → β) (opr : α → γ → γ)
    (i : β) (j : γ) (s : List α) :
    foldl_impl opl i s = s.foldl opl i ∧ foldr_impl opr s j = s.foldr opr j :=
  ⟨foldl_impl_eq_foldl opl s i, foldr_impl_eq_foldr opr s j⟩

/-! ## Repetition lemmas -/

theorem cmb_rep_fn_loop_ne_fail {α σ : Type} (P : Parser α σ) :
    ∀ (fuel : Nat) (acc : List σ) (it : Cursor α),
      cmb_rep_fn_loop P fuel acc it ≠ some none := by
  intro fuel
  induction fuel with
  | zero => intro acc it h; exact Option.noConfusion h
  | succ f ih =>
    intro acc it h
    cases hp : P it with
    | none =>
      simp only [cmb_rep_fn_loop, hp] at h
      exact Option.noConfusion (Option.some.inj h)
    | some r =>
      obtain ⟨v, itn⟩ := r
      simp only [cmb_rep_fn_loop, hp] at h
      exact ih (acc ++ [v]) itn h

theorem cmb_rep_fn_loop_spec {α σ : Type} (P : Parser α σ) :
    ∀ (fuel : Nat) (acc : List σ) (it : Cursor α) (vs : List σ) (it2 : Cursor α),
      cmb_rep_fn_loop P fuel acc it = some (some (vs, it2)) →
      ∃ tail, vs = acc ++ tail ∧ RunChain P it tail it2 ∧ P it2 = none := by
  intro fuel
  induction fuel with
  | zero =>
    intro acc it vs it2 h
    exact absurd h (by simp [cmb_rep_fn_loop])
  | succ f ih =>
    intro acc it vs it2 h
    cases hp : P it with
    | none =>
      simp only [cmb_rep_fn_loop, hp, Option.some.injEq, Prod.mk.injEq] at h
      obtain ⟨rfl, rfl⟩ := h
      exact ⟨[], by simp, RunChain.nil it, hp⟩
    | some r =>
      obtain ⟨v, itn⟩ := r
      simp only [cmb_rep_fn_loop, hp] at h
      obtain ⟨tail, htail, hchain, hfail⟩ := ih (acc ++ [v]) itn vs it2 h
      refine ⟨v :: tail, ?_, RunChain.cons hp hchain, hfail⟩
      rw [htail, List.append_assoc]
      rfl

theorem cmb_rep_fn_loop_total {α σ : Type} (P : Parser α σ)
    (hprog : ∀ c v c2, P c = some (v, c2) →
      c.pos < c2.pos ∧ c2.stream = c.stream ∧ c2.pos ≤ c2.stream.length)
    (_hend : ∀ c : Cursor α, c.stream.length ≤ c.pos → P c = none) :
    ∀ (fuel : Nat) (acc : List σ) (it : Cursor α),
      it.pos ≤ it.stream.length → it.stream.length < fuel + it.pos →
      ∃ r, cmb_rep_fn_loop P fuel acc it = some r := by
  intro fuel
  induction fuel with
  | zero => intro acc it h1 h2; omega
  | succ f ih =>
    intro acc it h1 h2
    cases hp : P it with
    | none => exact ⟨some (acc, it), by simp [cmb_rep_fn_loop, hp]⟩
    | some r =>
      obtain ⟨v, itn⟩ := r
      obtain ⟨hlt, hstr, hle⟩ := hprog it v itn hp
      have hlen : itn.stream.length = it.stream.length := by rw [hstr]
      obtain ⟨r2, hr2⟩ := ih (acc ++ [v]) itn hle (by omega)
      refine ⟨r2, ?_⟩
      simp only [cmb_rep_fn_loop, hp]
      exact hr2

theorem cmb_rep_fn_empty_iff {α σ : Type} (P : Parser α σ) (fuel : Nat)
    (it : Cursor α) :
    (∃ it2, cmb_rep_fn P fuel it = some (some ([], it2))) ↔
      0 < fuel ∧ P it = none := by
  constructor
  · rintro ⟨it2, h⟩
    obtain ⟨tail, htail, hchain, hfail⟩ :=
      cmb_rep_fn_loop_spec P fuel [] it [] it2 h
    have hnil : tail = [] := by simpa using htail.symm
    subst hnil
    cases hchain
    refine ⟨?_, hfail⟩
    cases fuel with
    | zero => exact absurd h (by simp [cmb_rep_fn, cmb_rep_fn_loop])
    | succ f => exact Nat.succ_pos f
  · rintro ⟨hpos, hfail⟩
    cases fuel with
    | zero => omega
    | succ f =>
      exact ⟨it, by simp [cmb_rep_fn, cmb_rep_fn_loop, hfail]⟩

/-- Claim C5: `cmb_rep_fn` has no failure path (its parse result is never
`Failure`); whenever the loop terminates, the collected sequence is exactly a
maximal run of consecutive successes of `P` from `c` — `RunChain` from `c` to
the returned cursor, with `P` failing there — and zero applications return
the original cursor; and for any `P` that strictly advances within the
stream and fails at its end, enough fuel guarantees the loop terminates in a
Success. -/
theorem cmb_rep_fn_correct {α σ : Type} (P : Parser α σ) (fuel : Nat)
    (it : Cursor α) :
    cmb_rep_fn P fuel it ≠ some none ∧
    (∀ vs it2, cmb_rep_fn P fuel it = some (some (vs, it2)) →
      RunChain P it vs it2 ∧ P it2 = none ∧ (vs = [] → it2 = it)) ∧
    ((∀ c v c2, P c = some (v, c2) →
        c.pos < c2.pos ∧ c2.stream = c.stream ∧ c2.pos ≤ c2.stream.length) →
      (∀ c : Cursor α, c.stream.length ≤ c.pos → P c = none) →
      it.pos ≤ it.stream.length → it.stream.length < fuel + it.pos →
      ∃ vs it2, cmb_rep_fn P fuel it = some (some (vs, it2))) := by
  refine ⟨cmb_rep_fn_loop_ne_fail P fuel [] it, ?_, ?_⟩
  · intro vs it2 h
    obtain ⟨tail, htail, hchain, hfail⟩ :=
      cmb_rep_fn_loop_spec P fuel [] it vs it2 h
    simp only [List.nil_append] at htail
    subst htail
    refine ⟨hchain, hfail, ?_⟩
    intro hnil
    subst hnil
    cases hchain
    rfl
  · intro hprog hend h1 h2
    obtain ⟨r, hr⟩ := cmb_rep_fn_loop_total P hprog hend fuel [] it h1 h2
    cases r with
    | none => exact absurd hr (cmb_rep_fn_loop_ne_fail P fuel [] it)
    | some pr => exact ⟨pr.1, pr.2, hr⟩

theorem cmb_rep_fn_correct_witness :
    RunChain pTok (Cursor.mk [5, 6] 0) [5, 6] (Cursor.mk [5, 6] 2) ∧
      pTok (Cursor.mk [5, 6] 2) = none ∧
      (([5, 6] : List Nat) = [] → Cursor.mk [5, 6] 2 = Cursor.mk [5, 6] 0) :=
  (cmb_rep_fn_correct pTok 3 (Cursor.mk [5, 6] 0)).2.1 [5, 6]
    (Cursor.mk [5, 6] 2) rfl

/-- Claim C6: `cmb_rep1_fn` fails iff the first application of `P` at `c`
fails (whenever the underlying loop runs at all, i.e. with positive fuel);
it succeeds with exactly `cmb_rep_fn`'s result restricted to nonempty
sequences; and every success decomposes as one application of `P` at `c`
followed by the remaining maximal run — so the sequence has length at least
one and equals the `repeat0` result. -/
theorem cmb_rep1_fn_correct {α σ : Type} (P : Parser α σ) (fuel : Nat)
    (it : Cursor α) :
    (cmb_rep1_fn P fuel it = some none ↔ 0 < fuel ∧ P it = none) ∧
    (∀ vs it2, cmb_rep1_fn P fuel it = some (some (vs, it2)) ↔
      cmb_rep_fn P fuel it = some (some (vs, it2)) ∧ vs ≠ []) ∧
    (∀ vs it2, cmb_rep1_fn P fuel it = some (some (vs, it2)) →
      ∃ v it1 tail, vs = v :: tail ∧ P it = some (v, it1) ∧
        RunChain P it1 tail it2 ∧ P it2 = none) := by
  have hmain : (cmb_rep1_fn P fuel it = some none ↔ 0 < fuel ∧ P it = none) ∧
      (∀ vs it2, cmb_rep1_fn P fuel it = some (some (vs, it2)) ↔
        cmb_rep_fn P fuel it = some (some (vs, it2)) ∧ vs ≠ []) := by
    cases hrep : cmb_rep_fn P fuel it with
    | none =>
      have h1 : cmb_rep1_fn P fuel it = none := by
        simp only [cmb_rep1_fn, hrep]
      constructor
      · rw [h1]
        constructor
        · intro hcontra
          exact Option.noConfusion hcontra
        · rintro ⟨hpos, hfail⟩
          obtain ⟨it2, h2⟩ := (cmb_rep_fn_empty_iff P fuel it).mpr ⟨hpos, hfail⟩
          rw [hrep] at h2
          exact Option.noConfusion h2
      · intro vs it2
        rw [h1]
        constructor
        · intro hcontra
          exact absurd hcontra (by simp)
        · rintro ⟨heq, hne⟩
          exact heq
    | some res =>
      cases res with
      | none => exact absurd hrep (cmb_rep_fn_loop_ne_fail P fuel [] it)
      | some pr =>
        obtain ⟨vs0, it0⟩ := pr
        by_cases hvs0 : vs0.isEmpty
        · have hvs0' : vs0 = [] := by simpa [List.isEmpty_iff] using hvs0
          subst hvs0'
          have h1 : cmb_rep1_fn P fuel it = some none := by
            simp [cmb_rep1_fn, hrep]
          constructor
          · rw [h1]
            simp only [true_iff]
            exact (cmb_rep_fn_empty_iff P fuel it).mp ⟨it0, hrep⟩
          · intro vs it2
            rw [h1]
            constructor
            · intro hcontra
              exact absurd (Option.some.inj hcontra) (by simp)
            · rintro ⟨heq, hne⟩
              simp only [Option.some.injEq, Prod.mk.injEq] at heq
              exact absurd heq.1.symm hne
        · have hvs0' : vs0 ≠ [] := by simpa [List.isEmpty_iff] using hvs0
          have h1 : cmb_rep1_fn P fuel it = some (some (vs0, it0)) := by
            simp [cmb_rep1_fn, hrep, hvs0]
          constructor
          · rw [h1]
            constructor
            · intro hcontra
              exact absurd (Option.some.inj hcontra) (by simp)
            · rintro ⟨hpos, hfail⟩
              obtain ⟨it2, h2⟩ := (cmb_rep_fn_empty_iff P fuel it).mpr ⟨hpos, hfail⟩
              have h3 := hrep.symm.trans h2
              simp only [Option.some.injEq, Prod.mk.injEq] at h3
              exact absurd h3.1 hvs0'
          · intro vs it2
            rw [h1]
            constructor
            · intro heq
              have h2 := Option.some.inj heq
              simp only [Option.some.injEq, Prod.mk.injEq] at h2
              obtain ⟨rfl, rfl⟩ := h2
              exact ⟨rfl, hvs0'⟩
            · rintro ⟨heq, hne⟩
              exact heq
  refine ⟨hmain.1, hmain.2, ?_⟩
  intro vs it2 h
  obtain ⟨hrep, hne⟩ := (hmain.2 vs it2).mp h
  obtain ⟨tail, htail, hchain, hfail⟩ :=
    cmb_rep_fn_loop_spec P fuel [] it vs it2 hrep
  simp only [List.nil_append] at htail
  subst htail
  cases hchain with
  | nil => exact absurd rfl hne
  | cons hp hrest => exact ⟨_, _, _, rfl, hp, hrest, hfail⟩

theorem cmb_rep1_fn_correct_witness :
    cmb_rep1_fn pFailN 1 (Cursor.mk [9] 0) = some none :=
  (cmb_rep1_fn_correct pFailN 1 (Cursor.mk [9] 0)).1.mpr ⟨Nat.one_pos, rfl⟩

/-- Claim C7: with a total mapper `f`, `cmb_map_fn_total` succeeds iff `P`
succeeds, and on success its value is `f` applied to `P`'s flattened
component values (shaped by the unwrap protocol) with `P`'s next cursor;
with a mapper `g` that can signal absence, an absent outcome makes the whole
combinator fail (discarding `P`'s consumption), a present outcome yields the
unwrapped transformed value with `P`'s next cursor, and `P`'s own failure
propagates as failure. -/
theorem cmb_map_fn_correct {α β : Type} (P : Parser α (Val β))
    (f : List (Val β) → Val β) (g : List (Val β) → Option (Val β))
    (it : Cursor α) :
    ((cmb_map_fn_total P f it).isSome ↔ (P it).isSome) ∧
    (∀ v it2, P it = some (v, it2) →
      cmb_map_fn_total P f it = some (unwrap_tuple (f (as_tuple v)), it2)) ∧
    (P it = none → cmb_map_fn_total P f it = none) ∧
    (∀ v it2, P it = some (v, it2) → g (as_tuple v) = none →
      cmb_map_fn_maybe P g it = none) ∧
    (∀ v it2 w, P it = some (v, it2) → g (as_tuple v) = some w →
      cmb_map_fn_maybe P g it = some (unwrap_tuple w, it2)) ∧
    (P it = none → cmb_map_fn_maybe P g it = none) := by
  refine ⟨?_, ?_, ?_, ?_, ?_, ?_⟩
  · cases h : P it with
    | none => simp [cmb_map_fn_total, h]
    | some r => simp [cmb_map_fn_total, h]
  · intro v it2 h
    simp [cmb_map_fn_total, h]
  · intro h
    simp [cmb_map_fn_total, h]
  · intro v it2 h hg
    simp [cmb_map_fn_maybe, h, hg]
  · intro v it2 w h hg
    simp [cmb_map_fn_maybe, h, hg]
  · intro h
    simp [cmb_map_fn_maybe, h]

theorem cmb_map_fn_correct_witness :
    cmb_map_fn_total pTokV (fun xs => Val.tup xs) (Cursor.mk [2] 0) =
      some (unwrap_tuple (Val.tup (as_tuple (Val.atom 2))), Cursor.mk [2] 1) :=
  (cmb_map_fn_correct pTokV (fun xs => Val.tup xs) (fun _ => none)
    (Cursor.mk [2] 0)).2.1 (Val.atom 2) (Cursor.mk [2] 1) rfl

end Cppcmb
